import Mathlib

/-!
Verification of the delivery-fee / distance-estimation subsystem of the
Papa-G's delivery storefront (`src/hooks/useGoogleMaps.ts`).

JavaScript numbers are modelled as exact rationals for the finite case,
together with the special IEEE values `NaN`, `Infinity` and `-Infinity`
(`JSVal`).  All rounding behaviour that matters to the claims
(`Math.floor`, `Math.round`, `Math.max`) is over values with one decimal
digit, where double rounding noise cannot change the result, so the
rational model is faithful.  The trigonometric part
(`calculateDistanceHaversine`) is modelled over the reals.
-/

/-- A JavaScript IEEE-754 number: a finite value (modelled exactly as a
rational) or one of the special values `NaN`, `Infinity`, `-Infinity`. -/
inductive JSVal where
  | nan
  | inf
  | ninf
  | fin (q : ℚ)
deriving DecidableEq

/-- The `distance` argument of `calculateDeliveryFee`: typed
`number | null` in the source, and the guard also tests `undefined`. -/
inductive JSDistArg where
  | null
  | undef
  | num (v : JSVal)
deriving DecidableEq

/-- JS subtraction `x - y` for a finite right operand `y`. -/
def JSVal.subFin : JSVal → ℚ → JSVal
  | nan, _ => nan
  | inf, _ => inf
  | ninf, _ => ninf
  | fin a, b => fin (a - b)

/-- JS `Math.max(0, x)` (`Math.max` propagates `NaN`;
`Math.max(0, -Infinity) = 0`). -/
def JSVal.max0 : JSVal → JSVal
  | nan => nan
  | inf => inf
  | ninf => fin 0
  | fin a => fin (max 0 a)

/-- JS `Math.floor` on the model. -/
def JSVal.floor : JSVal → JSVal
  | nan => nan
  | inf => inf
  | ninf => ninf
  | fin a => fin (⌊a⌋ : ℤ)

/-- JS multiplication `x * k` for a finite right operand `k`;
`±Infinity * 0` is `NaN`. -/
def JSVal.mulFin : JSVal → ℚ → JSVal
  | nan, _ => nan
  | inf, k => if 0 < k then inf else if k < 0 then ninf else nan
  | ninf, k => if 0 < k then ninf else if k < 0 then inf else nan
  | fin a, k => fin (a * k)

/-- JS addition `b + x` for a finite left operand `b`. -/
def JSVal.addFin (b : ℚ) : JSVal → JSVal
  | nan => nan
  | inf => inf
  | ninf => ninf
  | fin a => fin (b + a)

/-- The JS `<=` comparison on numbers (`NaN` compares false with
everything, including itself). -/
def JSVal.le : JSVal → JSVal → Bool
  | nan, _ => false
  | _, nan => false
  | ninf, _ => true
  | _, inf => true
  | inf, _ => false
  | fin _, ninf => false
  | fin a, fin b => decide (a ≤ b)

/-- The `deliverySettings` record `{ baseFee, perKmFee, baseDistance }`
read from the `site_settings` table (values parsed with `parseFloat`). -/
structure DeliverySettings where
  baseFee : ℚ
  perKmFee : ℚ
  baseDistance : ℚ
deriving DecidableEq

/-- The initial / default settings in `useGoogleMaps`
(`baseFee: 60, perKmFee: 13, baseDistance: 3`). -/
def defaultDeliverySettings : DeliverySettings :=
  { baseFee := 60, perKmFee := 13, baseDistance := 3 }

/-- Shallow embedding of `calculateDeliveryFee` (useGoogleMaps.ts,
lines 465-476):

```
if (distance === null || distance === undefined || isNaN(distance)) {
  return deliverySettings.baseFee;
}
const chargeableDistance = Math.max(0, distance - deliverySettings.baseDistance);
const chargeableFullKm = Math.floor(chargeableDistance);
return deliverySettings.baseFee + (chargeableFullKm * deliverySettings.perKmFee);
```
-/
def calculateDeliveryFee (s : DeliverySettings) : JSDistArg → JSVal
  | .null => .fin s.baseFee
  | .undef => .fin s.baseFee
  | .num v =>
    if v = .nan then .fin s.baseFee
    else
      (((v.subFin s.baseDistance).max0).floor.mulFin s.perKmFee).addFin s.baseFee

/-- Closed form of `calculateDeliveryFee` on a finite distance. -/
theorem calculateDeliveryFee_fin (s : DeliverySettings) (d : ℚ) :
    calculateDeliveryFee s (.num (.fin d)) =
      .fin (s.baseFee + (⌊max 0 (d - s.baseDistance)⌋ : ℤ) * s.perKmFee) := by
  simp [calculateDeliveryFee, JSVal.subFin, JSVal.max0, JSVal.floor,
    JSVal.mulFin, JSVal.addFin, mul_comm]

/-- Evaluation form of `calculateDeliveryFee` at the default settings. -/
theorem calculateDeliveryFee_default_eval (d : ℚ) :
    calculateDeliveryFee defaultDeliverySettings (.num (.fin d)) =
      .fin (60 + (⌊max 0 (d - 3)⌋ : ℤ) * 13) := by
  rw [calculateDeliveryFee_fin]
  rfl

/-- Claim C1 (counterexample): with `baseFee=60, perKmFee=13,
baseDistanceKm=3` the code returns 86, not 73, at distance 5.9
(and 99, not 86, at 6.0): `floor(5.9 - 3) = 2` whole chargeable
kilometers, so the fee is `60 + 2*13 = 86`. -/
theorem c1_counterexample :
    calculateDeliveryFee defaultDeliverySettings (.num (.fin (59/10))) ≠ .fin 73 ∧
    calculateDeliveryFee defaultDeliverySettings (.num (.fin (59/10))) = .fin 86 := by
  rw [calculateDeliveryFee_default_eval]
  norm_num

/-- Claim C1 (amended): for the fee configuration `baseFee=60, perKmFee=13,
baseDistanceKm=3`, `calculateDeliveryFee` returns 60 for distance 3.9,
73 for distance 4.0, 86 for distance 5.9, and 99 for distance 6.0. -/
theorem c1_fee_floor_values :
    calculateDeliveryFee defaultDeliverySettings (.num (.fin (39/10))) = .fin 60 ∧
    calculateDeliveryFee defaultDeliverySettings (.num (.fin 4)) = .fin 73 ∧
    calculateDeliveryFee defaultDeliverySettings (.num (.fin (59/10))) = .fin 86 ∧
    calculateDeliveryFee defaultDeliverySettings (.num (.fin 6)) = .fin 99 := by
  refine ⟨?_, ?_, ?_, ?_⟩ <;> rw [calculateDeliveryFee_default_eval] <;> norm_num

/-- Claim C2: for every configuration, `calculateDeliveryFee` applied to
a `null`, `undefined`, or `NaN` distance returns exactly the
configuration's base fee. -/
theorem c2_unknown_distance_default (s : DeliverySettings) :
    calculateDeliveryFee s .null = .fin s.baseFee ∧
    calculateDeliveryFee s .undef = .fin s.baseFee ∧
    calculateDeliveryFee s (.num .nan) = .fin s.baseFee := by
  refine ⟨rfl, rfl, ?_⟩
  simp [calculateDeliveryFee]

/-- Claim C3 (counterexample): `+Infinity` is a non-finite numeric
distance that escapes the `isNaN` guard: with the default configuration
the fee computed for it is `Infinity`, not the base fee 60. -/
theorem c3_counterexample :
    calculateDeliveryFee defaultDeliverySettings (.num .inf) ≠
      .fin defaultDeliverySettings.baseFee ∧
    calculateDeliveryFee defaultDeliverySettings (.num .inf) = .inf := by
  exact ⟨by decide, by decide⟩

/-- Claim C3 (amended): for every configuration with non-negative base
distance, a `NaN`, `-Infinity`, or negative finite distance makes
`calculateDeliveryFee` return exactly the base fee (so no charge below
the base fee arises from such inputs); `+Infinity`, however, escapes the
guard (see the counterexample). -/
theorem c3_degenerate_inputs_base_fee (s : DeliverySettings)
    (h : 0 ≤ s.baseDistance) :
    calculateDeliveryFee s (.num .nan) = .fin s.baseFee ∧
    calculateDeliveryFee s (.num .ninf) = .fin s.baseFee ∧
    ∀ d : ℚ, d < 0 → calculateDeliveryFee s (.num (.fin d)) = .fin s.baseFee := by
  refine ⟨by simp [calculateDeliveryFee], ?_, ?_⟩
  · simp [calculateDeliveryFee, JSVal.subFin, JSVal.max0, JSVal.floor,
      JSVal.mulFin, JSVal.addFin]
  · intro d hd
    rw [calculateDeliveryFee_fin]
    have hmax : max 0 (d - s.baseDistance) = 0 := by
      apply max_eq_left
      linarith
    rw [hmax]
    norm_num

/-- Witness for C3 at the default configuration and distance `-1`. -/
theorem c3_witness :
    0 ≤ defaultDeliverySettings.baseDistance ∧
    calculateDeliveryFee defaultDeliverySettings (.num (.fin (-1))) =
      .fin defaultDeliverySettings.baseFee :=
  ⟨by norm_num [defaultDeliverySettings],
    (c3_degenerate_inputs_base_fee defaultDeliverySettings
        (by norm_num [defaultDeliverySettings])).2.2
      (-1) (by norm_num)⟩

/-- Claim C4: for every fixed configuration with non-negative `baseFee`,
`perKmFee` and `baseDistance`, `calculateDeliveryFee` is monotone:
whenever `0 ≤ d1 ≤ d2`, the fee at `d1` is at most the fee at `d2`. -/
theorem c4_fee_monotone (s : DeliverySettings)
    (hb : 0 ≤ s.baseFee) (hk : 0 ≤ s.perKmFee) (hd : 0 ≤ s.baseDistance)
    (d1 d2 : ℚ) (h0 : 0 ≤ d1) (h12 : d1 ≤ d2) :
    (calculateDeliveryFee s (.num (.fin d1))).le
      (calculateDeliveryFee s (.num (.fin d2))) = true := by
  rw [calculateDeliveryFee_fin, calculateDeliveryFee_fin]
  simp only [JSVal.le, decide_eq_true_eq]
  have hfloor : ⌊max 0 (d1 - s.baseDistance)⌋ ≤ ⌊max 0 (d2 - s.baseDistance)⌋ := by
    apply Int.floor_le_floor
    exact max_le_max le_rfl (by linarith)
  have : ((⌊max 0 (d1 - s.baseDistance)⌋ : ℤ) : ℚ) ≤
      ((⌊max 0 (d2 - s.baseDistance)⌋ : ℤ) : ℚ) := by exact_mod_cast hfloor
  nlinarith

/-- Witness for C4 at the default configuration, `d1 = 1`, `d2 = 2`. -/
theorem c4_witness :
    (0 ≤ defaultDeliverySettings.baseFee ∧
      0 ≤ defaultDeliverySettings.perKmFee ∧
      0 ≤ defaultDeliverySettings.baseDistance ∧
      (0:ℚ) ≤ 1 ∧ (1:ℚ) ≤ 2) ∧
    (calculateDeliveryFee defaultDeliverySettings (.num (.fin 1))).le
      (calculateDeliveryFee defaultDeliverySettings (.num (.fin 2))) = true :=
  ⟨⟨by norm_num [defaultDeliverySettings], by norm_num [defaultDeliverySettings],
      by norm_num [defaultDeliverySettings], by norm_num, by norm_num⟩,
    c4_fee_monotone defaultDeliverySettings (by norm_num [defaultDeliverySettings])
      (by norm_num [defaultDeliverySettings]) (by norm_num [defaultDeliverySettings])
      1 2 (by norm_num) (by norm_num)⟩

/-- Claim C10: for every finite non-NaN distance `d` and every
configuration with non-negative fields, the computed fee is at least the
base fee, and it is exactly the base fee whenever `d < baseDistance + 1`
(in particular for all negative `d`, absorbed by the `max(0, _)` clamp). -/
theorem c10_base_fee_floor (s : DeliverySettings)
    (hb : 0 ≤ s.baseFee) (hk : 0 ≤ s.perKmFee) (hd : 0 ≤ s.baseDistance)
    (d : ℚ) :
    (JSVal.fin s.baseFee).le (calculateDeliveryFee s (.num (.fin d))) = true ∧
    (d < s.baseDistance + 1 →
      calculateDeliveryFee s (.num (.fin d)) = .fin s.baseFee) := by
  constructor
  · rw [calculateDeliveryFee_fin]
    simp only [JSVal.le, decide_eq_true_eq]
    have hfl : (0:ℤ) ≤ ⌊max 0 (d - s.baseDistance)⌋ := by
      rw [Int.le_floor]
      exact_mod_cast le_max_left 0 (d - s.baseDistance)
    have : (0:ℚ) ≤ ((⌊max 0 (d - s.baseDistance)⌋ : ℤ) : ℚ) := by
      exact_mod_cast hfl
    nlinarith
  · intro hlt
    rw [calculateDeliveryFee_fin]
    have hfl : ⌊max 0 (d - s.baseDistance)⌋ = 0 := by
      rw [Int.floor_eq_zero_iff]
      constructor
      · exact le_max_left 0 (d - s.baseDistance)
      · rw [max_lt_iff]
        constructor
        · norm_num
        · linarith
    rw [hfl]
    norm_num

/-- Witness for C10 at the default configuration and `d = 2`. -/
theorem c10_witness :
    (0 ≤ defaultDeliverySettings.baseFee ∧
      0 ≤ defaultDeliverySettings.perKmFee ∧
      0 ≤ defaultDeliverySettings.baseDistance ∧
      (2:ℚ) < defaultDeliverySettings.baseDistance + 1) ∧
    calculateDeliveryFee defaultDeliverySettings (.num (.fin 2)) =
      .fin defaultDeliverySettings.baseFee :=
  ⟨⟨by norm_num [defaultDeliverySettings], by norm_num [defaultDeliverySettings],
      by norm_num [defaultDeliverySettings], by norm_num [defaultDeliverySettings]⟩,
    (c10_base_fee_floor defaultDeliverySettings (by norm_num [defaultDeliverySettings])
      (by norm_num [defaultDeliverySettings]) (by norm_num [defaultDeliverySettings])
      2).2 (by norm_num [defaultDeliverySettings])⟩

/-! ### Address normalization (`normalizePhilippineAddress`)

The source normalizes addresses with a chain of JavaScript
`String.replace(/\bpat\b/gi, rep)` calls whose patterns consist only of
word characters.  Such a regex replaces exactly the maximal runs of word
characters (`[A-Za-z0-9_]`) that are case-insensitively equal to the
pattern.  We embed strings as their character lists, split them into
maximal runs of word / non-word characters (`tokenize`), and model each
`replace` as the per-run substitution `substToken`. -/

/-- JS regex `\w` word character class `[A-Za-z0-9_]`, which also
determines the `\b` word boundaries. -/
def isWordChar (c : Char) : Bool := c.isAlpha || c.isDigit || c == '_'

/-- Whitespace removed by JS `String.trim` (ASCII fragment). -/
def isSpaceChar (c : Char) : Bool := c == ' ' || c == '\t' || c == '\n' || c == '\r'

/-- JS `String.trim`: drop leading and trailing whitespace. -/
def trimChars (s : List Char) : List Char :=
  ((s.dropWhile isSpaceChar).reverse.dropWhile isSpaceChar).reverse

/-- Fuelled worker for `tokenize` (structural recursion so that the
kernel can evaluate it on concrete strings). -/
def tokenizeF : ℕ → List Char → List (List Char)
  | _, [] => []
  | 0, _ :: _ => []
  | fuel+1, c :: rest =>
    (c :: rest.takeWhile (fun d => isWordChar d == isWordChar c)) ::
      tokenizeF fuel (rest.dropWhile (fun d => isWordChar d == isWordChar c))

/-- Split a string into its maximal runs of word characters and non-word
characters (the units on which `\b`-delimited word-only regexes act). -/
def tokenize (s : List Char) : List (List Char) := tokenizeF s.length s

/-- Action of `String.replace(/\bpat\b/gi, rep)` on one maximal run:
a run of word characters that is case-insensitively equal to the
(all-word, lowercase) pattern is replaced, anything else is kept. -/
def substToken (pat rep t : List Char) : List Char :=
  if t.all isWordChar && t.map Char.toLower == pat then rep else t

/-- Embedding of `s.replace(/\bpat\b/gi, rep)` for a word-only pattern:
substitute on every maximal run. -/
def replaceWordCI (pat rep : String) (s : String) : String :=
  String.mk (((tokenize s.data).map (substToken pat.data rep.data)).flatten)

/-- Embedding of `normalizePlusCodeAddress` (useGoogleMaps.ts lines
29-34): it only trims the address. -/
def normalizePlusCodeAddress (address : String) : String :=
  String.mk (trimChars address.data)

/-- Shallow embedding of `normalizePhilippineAddress` (useGoogleMaps.ts
lines 37-57): trim, then the ten `replace(/\b..\b/gi, ..)` calls in
source order. -/
def normalizePhilippineAddress (address : String) : String :=
  replaceWordCI "floridablanca" "Floridablanca"
    (replaceWordCI "av" "Avenue"
      (replaceWordCI "ave" "Avenue"
        (replaceWordCI "st" "Street"
          (replaceWordCI "blk" "Block"
            (replaceWordCI "purok" "Purok"
              (replaceWordCI "bgy" "Barangay"
                (replaceWordCI "brgy" "Barangay"
                  (replaceWordCI "pampanga" "Pampanga"
                    (replaceWordCI "pangpaga" "Pampanga"
                      (String.mk (trimChars address.data)))))))))))

/-- The pattern/replacement pairs of `normalizePhilippineAddress`, in
application order. -/
def pinoyRules : List (String × String) :=
  [("pangpaga", "Pampanga"), ("pampanga", "Pampanga"), ("brgy", "Barangay"),
   ("bgy", "Barangay"), ("purok", "Purok"), ("blk", "Block"), ("st", "Street"),
   ("ave", "Avenue"), ("av", "Avenue"), ("floridablanca", "Floridablanca")]

/-- The combined action of all ten replacements on one maximal run. -/
def substAllTokens (t : List Char) : List Char :=
  pinoyRules.foldl (fun v pr => substToken pr.1.data pr.2.data v) t

example : normalizePhilippineAddress " brgy 5, pangpaga st " =
    "Barangay 5, Pampanga Street" := by decide
example : normalizePhilippineAddress "Barangay 5, Pampanga Street" =
    "Barangay 5, Pampanga Street" := by decide
example : normalizePhilippineAddress "" = "" := by decide

/-! ### Geocoding (`geocodeAddressGoogle`, `geocodeAddressOSM`)

Both geocoders build a list of address variants from the normalized
address, de-duplicate it (`[...new Set(...)]`, which keeps the first
occurrence), and fetch each variant in order until one yields a result.
A response with `status !== 'OK'` / an empty result array (Google) or a
non-ok HTTP status / empty array (OSM) makes the loop continue with the
next variant; a thrown exception aborts the whole geocode with `null`.
The network is modelled as an oracle from the queried variant to one of
these three outcomes, and each geocoder also returns the list of
variants it actually fetched. -/

/-- Outcome of one geocoding fetch. -/
inductive NetResp where
  | ok (lat lng : ℚ)
  | noResult
  | netFail
deriving DecidableEq

/-- Result of a geocoder run: the coordinate found (if any) and the
queries actually sent over the network, in order. -/
structure GeoRun where
  result : Option (ℚ × ℚ)
  requests : List String
deriving DecidableEq

/-- Try the variants in order: first `ok` wins, `noResult` continues,
`netFail` aborts (the `catch` of the source returns `null`). -/
def tryVariants (oracle : String → NetResp) : List String → GeoRun
  | [] => ⟨none, []⟩
  | v :: rest =>
    match oracle v with
    | .ok lat lng => ⟨some (lat, lng), [v]⟩
    | .noResult =>
      let r := tryVariants oracle rest
      ⟨r.result, v :: r.requests⟩
    | .netFail => ⟨none, [v]⟩

/-- Fuelled worker for `dedupFirst`. -/
def dedupFirstF : ℕ → List String → List String
  | _, [] => []
  | 0, _ :: _ => []
  | fuel+1, a :: l => a :: dedupFirstF fuel (l.filter (fun b => b != a))

/-- `[...new Set(list)]`: de-duplicate keeping first occurrences. -/
def dedupFirst (l : List String) : List String := dedupFirstF l.length l

/-- JS `String.includes`: substring containment (case-sensitive). -/
def containsSub (n : List Char) : List Char → Bool
  | [] => n.isEmpty
  | c :: rest => n.isPrefixOf (c :: rest) || containsSub n rest

/-- `hay.includes(needle)` on strings. -/
def stringIncludes (hay needle : String) : Bool := containsSub needle.data hay.data

/-- The `addressVariations` list of `geocodeAddressGoogle`
(useGoogleMaps.ts lines 224-232), built from the normalized address and
de-duplicated. -/
def googleVariations (n : String) : List String :=
  dedupFirst
    [n,
     if stringIncludes n "Floridablanca" then n else n ++ ", Floridablanca",
     if stringIncludes n "Pampanga" then n else n ++ ", Pampanga",
     n ++ ", Floridablanca, Pampanga, Philippines"]

/-- The `addressVariations` list of `geocodeAddressOSM`
(useGoogleMaps.ts lines 163-170), built from the normalized address and
de-duplicated. -/
def osmVariations (n : String) : List String :=
  dedupFirst [n, n ++ ", Philippines", n ++ ", Pampanga, Philippines"]

/-- Shallow embedding of `geocodeAddressGoogle` (lines 212-253): with no
API key configured it returns `null` before any network activity;
otherwise it normalizes the address and tries the Google variants. -/
def geocodeAddressGoogle (apiKey : Option String) (oracle : String → NetResp)
    (address : String) : GeoRun :=
  match apiKey with
  | none => ⟨none, []⟩
  | some _ =>
    tryVariants oracle
      (googleVariations (normalizePhilippineAddress (normalizePlusCodeAddress address)))

/-- Shallow embedding of `geocodeAddressOSM` (lines 156-208): normalize
the address and try the OSM variants (all queries carry
`countrycodes=ph`). -/
def geocodeAddressOSM (oracle : String → NetResp) (address : String) : GeoRun :=
  tryVariants oracle
    (osmVariations (normalizePhilippineAddress (normalizePlusCodeAddress address)))

/-- The caller-side composition used by `calculateDistance`,
`calculateDistanceBetweenAddresses` and `isWithinDeliveryArea`:
`let coords = await geocodeAddressGoogle(a); if (!coords) coords = await
geocodeAddressOSM(a)`. -/
def geocodeAddressCombined (apiKey : Option String)
    (gOracle oOracle : String → NetResp) (address : String) : Option (ℚ × ℚ) :=
  match (geocodeAddressGoogle apiKey gOracle address).result with
  | some c => some c
  | none => (geocodeAddressOSM oOracle address).result

example : (geocodeAddressOSM (fun _ => .noResult) "").requests =
    ["", ", Philippines", ", Pampanga, Philippines"] := by decide
example : (geocodeAddressGoogle (some "k") (fun _ => .noResult) "Foo").requests =
    ["Foo", "Foo, Floridablanca", "Foo, Pampanga",
     "Foo, Floridablanca, Pampanga, Philippines"] := by decide

/-- Under an oracle that never finds results and never throws, every
variant is queried and the run ends with no coordinate. -/
theorem tryVariants_allFail (oracle : String → NetResp)
    (h : ∀ v, oracle v = .noResult) :
    ∀ vs, tryVariants oracle vs = ⟨none, vs⟩ := by
  intro vs
  induction vs with
  | nil => rfl
  | cons v rest ih => simp [tryVariants, h v, ih]

/-- A geocoder never queries more variants than its variant list holds. -/
theorem tryVariants_requests_length (oracle : String → NetResp) :
    ∀ vs, (tryVariants oracle vs).requests.length ≤ vs.length := by
  intro vs
  induction vs with
  | nil => simp [tryVariants]
  | cons v rest ih =>
    cases hv : oracle v <;> simp [tryVariants, hv] <;> omega

/-- De-duplication does not lengthen a list. -/
theorem dedupFirstF_length_le : ∀ (fuel : ℕ) (l : List String),
    (dedupFirstF fuel l).length ≤ l.length := by
  intro fuel
  induction fuel with
  | zero => intro l; cases l <;> simp [dedupFirstF]
  | succ n ih =>
    intro l
    cases l with
    | nil => simp [dedupFirstF]
    | cons a t =>
      simp only [dedupFirstF, List.length_cons, Nat.succ_le_succ_iff]
      exact le_trans (ih _) (List.length_filter_le _ _)

/-- De-duplication does not lengthen a list. -/
theorem dedupFirst_length_le (l : List String) :
    (dedupFirst l).length ≤ l.length :=
  dedupFirstF_length_le l.length l

/-- De-duplication keeps the head. -/
theorem dedupFirst_cons (a : String) (l : List String) :
    dedupFirst (a :: l) = a :: dedupFirstF l.length (l.filter (fun b => b != a)) :=
  rfl

/-- Claim C7 (counterexample): on the empty address the OSM geocoder is
not short-circuited: it issues network requests for all three variants
derived from the empty string (shown with an oracle on which every
request comes back empty), only then returning NotFound. -/
theorem c7_counterexample :
    (geocodeAddressOSM (fun _ => .noResult) "").requests ≠ [] ∧
    (geocodeAddressOSM (fun _ => .noResult) "").requests =
      ["", ", Philippines", ", Pampanga, Philippines"] ∧
    (geocodeAddressOSM (fun _ => .noResult) "").result = none := by
  refine ⟨by decide, by decide, by decide⟩

/-- Claim C7 (amended): the empty address is not special-cased. The OSM
geocoder queries the three variants built from the empty string and
returns NotFound only because every query fails; with an API key
configured, the Google geocoder also issues requests for the empty
address (it skips only for a missing key). -/
theorem c7_empty_address_no_guard (key : String) (oracle : String → NetResp)
    (h : ∀ v, oracle v = .noResult) :
    (geocodeAddressOSM oracle "").requests =
      ["", ", Philippines", ", Pampanga, Philippines"] ∧
    (geocodeAddressOSM oracle "").result = none ∧
    (geocodeAddressGoogle (some key) oracle "").requests ≠ [] := by
  have hosm : osmVariations (normalizePhilippineAddress (normalizePlusCodeAddress "")) =
      ["", ", Philippines", ", Pampanga, Philippines"] := by decide
  have hgoogle : googleVariations (normalizePhilippineAddress (normalizePlusCodeAddress "")) =
      ["", ", Floridablanca", ", Pampanga",
       ", Floridablanca, Pampanga, Philippines"] := by decide
  refine ⟨?_, ?_, ?_⟩
  · rw [geocodeAddressOSM, hosm, tryVariants_allFail oracle h]
  · rw [geocodeAddressOSM, hosm, tryVariants_allFail oracle h]
  · show (tryVariants oracle _).requests ≠ []
    rw [hgoogle, tryVariants_allFail oracle h]
    simp

/-- Witness for C7 with the everywhere-empty oracle. -/
theorem c7_witness :
    (∀ v : String, (fun _ : String => NetResp.noResult) v = NetResp.noResult) ∧
    (geocodeAddressOSM (fun _ => NetResp.noResult) "").requests =
      ["", ", Philippines", ", Pampanga, Philippines"] :=
  ⟨fun _ => rfl, (c7_empty_address_no_guard "k" _ (fun _ => rfl)).1⟩

/-- The three-variant strategy the spec ascribes to provider A ("raw
normalized string; string + country suffix; string + regional suffix").
Modelled from the spec's words, for comparison with the source's
`googleVariations`. -/
def specProviderAVariations (n : String) : List String :=
  dedupFirst [n, n ++ ", Philippines", n ++ ", Pampanga, Philippines"]

/-- Claim C9 (counterexample): for the address "Foo" (with a key
configured and an oracle on which every request comes back empty),
provider A queries FOUR variants — raw, "+ , Floridablanca",
"+ , Pampanga", "+ , Floridablanca, Pampanga, Philippines" — which is
not the spec's three-variant list (raw / + country / + region+country). -/
theorem c9_counterexample :
    (geocodeAddressGoogle (some "k") (fun _ => .noResult) "Foo").requests ≠
      specProviderAVariations "Foo" ∧
    (geocodeAddressGoogle (some "k") (fun _ => .noResult) "Foo").requests.length = 4 := by
  refine ⟨by decide, by decide⟩

/-- Claim C9 (amended): the Geocoder tries provider A (keyed) first,
skipping it with no network activity when no API key is configured (the
combined geocode then being provider B's answer); with a key, provider A
tries up to 4 variants (raw normalized string, plus-municipality,
plus-province, plus municipality-province-country), taking the first
variant returning a result (if the raw normalized string resolves, it is
the only request); provider B (keyless, restricted to `countrycodes=ph`)
tries up to 3 variants and is consulted only when provider A yields
nothing. -/
theorem c9_resolution_order (key : String) (gOr oOr : String → NetResp)
    (address : String) :
    (geocodeAddressGoogle none gOr address = ⟨none, []⟩ ∧
      geocodeAddressCombined none gOr oOr address =
        (geocodeAddressOSM oOr address).result) ∧
    (geocodeAddressGoogle (some key) gOr address).requests.length ≤ 4 ∧
    (geocodeAddressOSM oOr address).requests.length ≤ 3 ∧
    (∀ la ln,
      gOr (normalizePhilippineAddress (normalizePlusCodeAddress address)) = .ok la ln →
      geocodeAddressGoogle (some key) gOr address =
        ⟨some (la, ln), [normalizePhilippineAddress (normalizePlusCodeAddress address)]⟩) ∧
    (∀ c, (geocodeAddressGoogle (some key) gOr address).result = some c →
      geocodeAddressCombined (some key) gOr oOr address = some c) := by
  refine ⟨⟨rfl, rfl⟩, ?_, ?_, ?_, ?_⟩
  · calc (geocodeAddressGoogle (some key) gOr address).requests.length
        ≤ (googleVariations (normalizePhilippineAddress (normalizePlusCodeAddress address))).length :=
          tryVariants_requests_length _ _
      _ ≤ 4 := dedupFirst_length_le _
  · calc (geocodeAddressOSM oOr address).requests.length
        ≤ (osmVariations (normalizePhilippineAddress (normalizePlusCodeAddress address))).length :=
          tryVariants_requests_length _ _
      _ ≤ 3 := dedupFirst_length_le _
  · intro la ln hok
    show tryVariants gOr _ = _
    rw [googleVariations, dedupFirst_cons]
    simp [tryVariants, hok]
  · intro c hc
    rw [geocodeAddressCombined, hc]

/-- Witness for C9: an oracle that resolves the raw normalized address
"Foo" immediately; provider A stops after one request. -/
theorem c9_witness :
    ((fun v : String => if v = "Foo" then NetResp.ok 1 2 else NetResp.noResult)
        (normalizePhilippineAddress (normalizePlusCodeAddress "Foo")) = NetResp.ok 1 2) ∧
    geocodeAddressGoogle (some "k")
        (fun v => if v = "Foo" then NetResp.ok 1 2 else NetResp.noResult) "Foo" =
      ⟨some (1, 2), [normalizePhilippineAddress (normalizePlusCodeAddress "Foo")]⟩ :=
  ⟨by decide,
    (c9_resolution_order "k"
        (fun v => if v = "Foo" then NetResp.ok 1 2 else NetResp.noResult)
        (fun _ => NetResp.noResult) "Foo").2.2.2.1 1 2 (by decide)⟩

/-! ### Idempotence of `normalizePhilippineAddress`

`tokenize` splits a string into maximal runs of word / non-word
characters and every replacement acts run-wise, so idempotence reduces
to (a) re-tokenizing the flattened image of a run list gives back the
run list, and (b) the combined per-run substitution is a fixed point on
its own output. -/

/-- Word characters are never trim-whitespace. -/
theorem word_not_space {c : Char} (h : isWordChar c = true) :
    isSpaceChar c = false := by
  cases hsp : isSpaceChar c
  · rfl
  · exfalso
    simp only [isSpaceChar, Bool.or_eq_true, beq_iff_eq] at hsp
    rcases hsp with ((rfl | rfl) | rfl) | rfl <;> exact absurd h (by decide)

/-- The fuelled tokenizer is fuel-insensitive above the list length. -/
theorem tokenizeF_eq : ∀ (fuel : ℕ) (s : List Char), s.length ≤ fuel →
    tokenizeF fuel s = tokenize s := by
  intro fuel
  induction fuel using Nat.strong_induction_on with
  | _ fuel ih =>
    intro s hs
    match fuel, s with
    | 0, [] => rfl
    | n + 1, [] => rfl
    | 0, c :: rest => simp at hs
    | n + 1, c :: rest =>
      have hrest : rest.length ≤ n := by simpa using hs
      have hdrop : (rest.dropWhile (fun d => isWordChar d == isWordChar c)).length ≤
          rest.length := (List.dropWhile_sublist _).length_le
      have h1 : tokenizeF (n + 1) (c :: rest) =
          (c :: rest.takeWhile (fun d => isWordChar d == isWordChar c)) ::
            tokenizeF n (rest.dropWhile (fun d => isWordChar d == isWordChar c)) := rfl
      have h2 : tokenize (c :: rest) =
          (c :: rest.takeWhile (fun d => isWordChar d == isWordChar c)) ::
            tokenizeF rest.length
              (rest.dropWhile (fun d => isWordChar d == isWordChar c)) := rfl
      rw [h1, h2, ih n (Nat.lt_succ_self n) _ (le_trans hdrop hrest),
        ih rest.length (Nat.lt_succ_of_le hrest) _ hdrop]

/-- Unfolding equation of `tokenize` on a nonempty list. -/
theorem tokenize_cons (c : Char) (rest : List Char) :
    tokenize (c :: rest) =
      (c :: rest.takeWhile (fun d => isWordChar d == isWordChar c)) ::
        tokenize (rest.dropWhile (fun d => isWordChar d == isWordChar c)) := by
  have hdrop : (rest.dropWhile (fun d => isWordChar d == isWordChar c)).length ≤
      rest.length := (List.dropWhile_sublist _).length_le
  have h2 : tokenize (c :: rest) =
      (c :: rest.takeWhile (fun d => isWordChar d == isWordChar c)) ::
        tokenizeF rest.length
          (rest.dropWhile (fun d => isWordChar d == isWordChar c)) := rfl
  rw [h2, tokenizeF_eq rest.length _ hdrop]

/-- Flattening the runs gives back the string. -/
theorem tokenize_flatten : ∀ (n : ℕ) (s : List Char), s.length ≤ n →
    (tokenize s).flatten = s := by
  intro n
  induction n with
  | zero =>
    intro s hs
    have : s = [] := List.eq_nil_of_length_eq_zero (Nat.le_zero.mp hs)
    subst this
    rfl
  | succ n ih =>
    intro s hs
    cases s with
    | nil => rfl
    | cons c rest =>
      rw [tokenize_cons]
      have hdrop : (rest.dropWhile (fun d => isWordChar d == isWordChar c)).length ≤
          rest.length := (List.dropWhile_sublist _).length_le
      simp only [List.flatten_cons, List.cons_append]
      rw [ih _ (le_trans hdrop (by simpa using hs)),
        List.takeWhile_append_dropWhile]

/-- Flattening the runs gives back the string (top-level form). -/
theorem tokenize_flatten' (s : List Char) : (tokenize s).flatten = s :=
  tokenize_flatten s.length s le_rfl

/-- A maximal run: nonempty, all characters of word-kind `k`. -/
def IsRun (k : Bool) (t : List Char) : Prop :=
  t ≠ [] ∧ ∀ c ∈ t, isWordChar c = k

/-- `Runs p ts`: `ts` is a list of nonempty homogeneous runs with
alternating kinds, the first of which differs from the optional
preceding kind `p`. -/
inductive Runs : Option Bool → List (List Char) → Prop where
  | nil (p : Option Bool) : Runs p []
  | cons (p : Option Bool) (k : Bool) (t : List Char) (ts : List (List Char)) :
      IsRun k t → p ≠ some k → Runs (some k) ts → Runs p (t :: ts)

/-- The head of a `dropWhile` residue fails the predicate. -/
theorem dropWhile_head_not {α : Type} (p : α → Bool) :
    ∀ (l : List α) (c : α) (r : List α), l.dropWhile p = c :: r → p c = false := by
  intro l
  induction l with
  | nil => intro c r h; simp at h
  | cons a t ih =>
    intro c r h
    rw [List.dropWhile_cons] at h
    by_cases hpa : p a = true
    · rw [if_pos hpa] at h
      exact ih c r h
    · rw [if_neg hpa] at h
      injection h with h1 _
      subst h1
      simpa using hpa

/-- Every token list produced by `tokenize` is an alternating run list. -/
theorem runs_tokenize : ∀ (n : ℕ) (s : List Char), s.length ≤ n →
    ∀ p : Option Bool, (∀ c r, s = c :: r → p ≠ some (isWordChar c)) →
    Runs p (tokenize s) := by
  intro n
  induction n with
  | zero =>
    intro s hs p _
    have : s = [] := List.eq_nil_of_length_eq_zero (Nat.le_zero.mp hs)
    subst this
    exact Runs.nil p
  | succ n ih =>
    intro s hs p hp
    cases s with
    | nil => exact Runs.nil p
    | cons c rest =>
      rw [tokenize_cons]
      refine Runs.cons p (isWordChar c) _ _ ⟨by simp, ?_⟩ (hp c rest rfl) ?_
      · intro d hd
        rcases List.mem_cons.mp hd with rfl | hd'
        · rfl
        · have h' := List.mem_takeWhile_imp hd'
          simpa using h'
      · have hdrop : (rest.dropWhile (fun d => isWordChar d == isWordChar c)).length ≤
            rest.length := (List.dropWhile_sublist _).length_le
        refine ih _ (le_trans hdrop (by simpa using hs)) _ ?_
        intro d r hdr hsome
        have hne := dropWhile_head_not _ rest d r hdr
        rw [beq_eq_false_iff_ne] at hne
        exact hne (Option.some.inj hsome).symm

/-- `takeWhile` passes over a fully satisfying prefix. -/
theorem takeWhile_append_all {α : Type} {p : α → Bool} :
    ∀ {l1 l2 : List α}, (∀ a ∈ l1, p a = true) →
      (l1 ++ l2).takeWhile p = l1 ++ l2.takeWhile p := by
  intro l1
  induction l1 with
  | nil => intro l2 _; simp
  | cons a t ih =>
    intro l2 h
    rw [List.cons_append, List.takeWhile_cons, if_pos (h a (by simp)),
      ih (fun b hb => h b (by simp [hb])), List.cons_append]

/-- `dropWhile` drops a fully satisfying prefix. -/
theorem dropWhile_append_all {α : Type} {p : α → Bool} :
    ∀ {l1 l2 : List α}, (∀ a ∈ l1, p a = true) →
      (l1 ++ l2).dropWhile p = l2.dropWhile p := by
  intro l1
  induction l1 with
  | nil => intro l2 _; simp
  | cons a t ih =>
    intro l2 h
    rw [List.cons_append, List.dropWhile_cons, if_pos (h a (by simp))]
    exact ih fun b hb => h b (by simp [hb])

/-- The head of the flattening of a run list following kind `k` is not
of kind `k`. -/
theorem runs_flatten_head {k : Bool} {ts : List (List Char)}
    (h : Runs (some k) ts) :
    ∀ c r, ts.flatten = c :: r → isWordChar c ≠ k := by
  cases h with
  | nil => intro c r hcr; simp at hcr
  | cons _ k2 t2 ts2 hrun hne _ =>
    intro c r hcr
    obtain ⟨d, t2', rfl⟩ := List.exists_cons_of_ne_nil hrun.1
    simp only [List.flatten_cons, List.cons_append] at hcr
    have hdc : d = c := (List.cons.inj hcr).1
    have hdk : isWordChar d = k2 := hrun.2 d (by simp)
    rw [← hdc, hdk]
    intro hk
    exact hne (by rw [hk])

/-- Re-tokenizing the flattening of an alternating run list gives back
the run list. -/
theorem tokenize_flatten_inv : ∀ {p : Option Bool} {ts : List (List Char)},
    Runs p ts → tokenize ts.flatten = ts := by
  intro p ts h
  induction h with
  | nil => rfl
  | cons p k t ts hrun hne hts ih =>
    obtain ⟨c, t', rfl⟩ := List.exists_cons_of_ne_nil hrun.1
    have hkc : isWordChar c = k := hrun.2 c (by simp)
    have hall : ∀ d ∈ t', (fun d => isWordChar d == isWordChar c) d = true := by
      intro d hd
      simp [hrun.2 d (by simp [hd]), hkc]
    simp only [List.flatten_cons, List.cons_append]
    rw [tokenize_cons, takeWhile_append_all hall, dropWhile_append_all hall]
    have htake : ts.flatten.takeWhile (fun d => isWordChar d == isWordChar c) = [] := by
      cases hflat : ts.flatten with
      | nil => simp
      | cons d r =>
        rw [List.takeWhile_cons, if_neg]
        simp only [hkc, beq_iff_eq]
        exact runs_flatten_head hts d r hflat
    have hdrop : ts.flatten.dropWhile (fun d => isWordChar d == isWordChar c) =
        ts.flatten := by
      cases hflat : ts.flatten with
      | nil => simp
      | cons d r =>
        rw [List.dropWhile_cons, if_neg]
        simp only [hkc, beq_iff_eq]
        exact runs_flatten_head hts d r hflat
    rw [htake, hdrop, List.append_nil, ih]

/-- `substToken` preserves run kind and nonemptiness when the
replacement is a nonempty word string. -/
theorem substToken_isRun {k : Bool} {t : List Char} (h : IsRun k t)
    (pat rep : List Char) (hrep : rep ≠ []) (hrepw : rep.all isWordChar = true) :
    IsRun k (substToken pat rep t) := by
  unfold substToken
  split
  · next hguard =>
    have hall : t.all isWordChar = true := (Bool.and_eq_true _ _ |>.mp hguard).1
    obtain ⟨c, t', rfl⟩ := List.exists_cons_of_ne_nil h.1
    have hk : k = true := by
      have h1 : isWordChar c = k := h.2 c (by simp)
      have h2 : isWordChar c = true := by
        have := List.all_eq_true.mp hall c (by simp)
        simpa using this
      rw [← h1, h2]
    subst hk
    exact ⟨hrep, fun d hd => by simpa using List.all_eq_true.mp hrepw d hd⟩
  · exact h

/-- Mapping a run-preserving substitution over an alternating run list
preserves the alternation. -/
theorem runs_map_substToken (pat rep : List Char) (hrep : rep ≠ [])
    (hrepw : rep.all isWordChar = true) :
    ∀ {p : Option Bool} {ts : List (List Char)}, Runs p ts →
      Runs p (ts.map (substToken pat rep)) := by
  intro p ts h
  induction h with
  | nil => exact Runs.nil _
  | cons p k t ts hrun hne _ ih =>
    exact Runs.cons p k _ _ (substToken_isRun hrun pat rep hrep hrepw) hne ih

/-- Apply a list of word replacements to a string, in order. -/
def applyRules (rules : List (String × String)) (s : String) : String :=
  rules.foldl (fun x pr => replaceWordCI pr.1 pr.2 x) s

/-- Apply a list of word replacements to a single run, in order. -/
def substRules (rules : List (String × String)) (t : List Char) : List Char :=
  rules.foldl (fun v pr => substToken pr.1.data pr.2.data v) t

/-- `normalizePhilippineAddress` is the rule chain applied to the
trimmed input. -/
theorem normalize_eq_applyRules (a : String) :
    normalizePhilippineAddress a =
      applyRules pinoyRules (String.mk (trimChars a.data)) := rfl

/-- One `replace` step on a canonical run decomposition. -/
theorem replaceWordCI_flatten (pat rep : String) {p : Option Bool}
    {ts : List (List Char)} (h : Runs p ts) :
    replaceWordCI pat rep (String.mk ts.flatten) =
      String.mk ((ts.map (substToken pat.data rep.data)).flatten) := by
  unfold replaceWordCI
  have hdata : (String.mk ts.flatten).data = ts.flatten := rfl
  rw [hdata, tokenize_flatten_inv h]

/-- The full rule chain on a canonical run decomposition acts run-wise,
and preserves the run structure. -/
theorem applyRules_flatten : ∀ (rules : List (String × String)),
    (∀ pr ∈ rules, pr.2.data ≠ [] ∧ pr.2.data.all isWordChar = true) →
    ∀ {ts : List (List Char)}, Runs none ts →
      applyRules rules (String.mk ts.flatten) =
        String.mk ((ts.map (substRules rules)).flatten) ∧
      Runs none (ts.map (substRules rules)) := by
  intro rules
  induction rules with
  | nil =>
    intro _ ts h
    have hmap : ts.map (substRules []) = ts := by
      rw [show substRules [] = id from funext fun t => rfl, List.map_id]
    exact ⟨by rw [hmap]; rfl, by rw [hmap]; exact h⟩
  | cons pr rest ih =>
    intro hok ts h
    have hpr := hok pr (by simp)
    have hruns : Runs none (ts.map (substToken pr.1.data pr.2.data)) :=
      runs_map_substToken _ _ hpr.1 hpr.2 h
    have hrest := ih (fun q hq => hok q (by simp [hq])) hruns
    have hcomp : (ts.map (substToken pr.1.data pr.2.data)).map (substRules rest) =
        ts.map (substRules (pr :: rest)) := by
      rw [List.map_map]
      rfl
    constructor
    · calc applyRules (pr :: rest) (String.mk ts.flatten)
          = applyRules rest (replaceWordCI pr.1 pr.2 (String.mk ts.flatten)) := rfl
        _ = applyRules rest
              (String.mk ((ts.map (substToken pr.1.data pr.2.data)).flatten)) := by
            rw [replaceWordCI_flatten pr.1 pr.2 h]
        _ = String.mk
              (((ts.map (substToken pr.1.data pr.2.data)).map (substRules rest)).flatten) :=
            hrest.1
        _ = String.mk ((ts.map (substRules (pr :: rest))).flatten) := by rw [hcomp]
    · rw [← hcomp]
      exact hrest.2

/-- Canonical form of `normalizePhilippineAddress`: the combined
substitution mapped over the runs of the trimmed input. -/
theorem normalize_form (a : String) :
    normalizePhilippineAddress a =
      String.mk (((tokenize (trimChars a.data)).map substAllTokens).flatten) ∧
    Runs none ((tokenize (trimChars a.data)).map substAllTokens) := by
  have hruleok : ∀ pr ∈ pinoyRules, pr.2.data ≠ [] ∧ pr.2.data.all isWordChar = true := by
    decide
  have hruns : Runs none (tokenize (trimChars a.data)) :=
    runs_tokenize (trimChars a.data).length _ le_rfl none (fun c r _ => by simp)
  have h := applyRules_flatten pinoyRules hruleok hruns
  rw [tokenize_flatten'] at h
  exact ⟨by rw [normalize_eq_applyRules a, h.1]; rfl, h.2⟩

/-- The combined substitution either fixes a run or returns one of the
replacement words. -/
theorem substRules_cases : ∀ (rules : List (String × String)) (t : List Char),
    substRules rules t = t ∨
      substRules rules t ∈ rules.map (fun pr => pr.2.data) := by
  intro rules
  induction rules with
  | nil => intro t; left; rfl
  | cons pr rest ih =>
    intro t
    have hstep : substRules (pr :: rest) t =
        substRules rest (substToken pr.1.data pr.2.data t) := rfl
    by_cases hcond : (t.all isWordChar && t.map Char.toLower == pr.1.data) = true
    · have hrep : substToken pr.1.data pr.2.data t = pr.2.data := by
        unfold substToken
        rw [if_pos hcond]
      rcases ih pr.2.data with h | h
      · right
        rw [hstep, hrep, h]
        simp
      · right
        rw [hstep, hrep]
        simp only [List.map_cons, List.mem_cons]
        right
        exact h
    · have hkeep : substToken pr.1.data pr.2.data t = t := by
        unfold substToken
        rw [if_neg hcond]
      rw [hstep, hkeep]
      rcases ih t with h | h
      · left; exact h
      · right
        simp only [List.map_cons, List.mem_cons]
        right
        exact h

/-- Every replacement word of the rule table is a fixed point of the
combined substitution. -/
theorem substAllTokens_reps :
    ∀ r ∈ pinoyRules.map (fun pr => pr.2.data), substAllTokens r = r := by
  decide

/-- The combined substitution is idempotent on every run. -/
theorem substAllTokens_idem (t : List Char) :
    substAllTokens (substAllTokens t) = substAllTokens t := by
  rcases substRules_cases pinoyRules t with h | h
  · show substRules pinoyRules (substRules pinoyRules t) = substRules pinoyRules t
    rw [h]
    exact h
  · exact substAllTokens_reps _ h

/-- A list whose head fails the predicate is untouched by `dropWhile`. -/
theorem dropWhile_eq_self_of_head {α : Type} (p : α → Bool) :
    ∀ l : List α, (∀ c r, l = c :: r → p c = false) → l.dropWhile p = l := by
  intro l h
  cases l with
  | nil => rfl
  | cons a t => rw [List.dropWhile_cons, if_neg (by rw [h a t rfl]; simp)]

/-- The first character of a trimmed string is not whitespace. -/
theorem trimChars_head (l : List Char) :
    ∀ c r, trimChars l = c :: r → isSpaceChar c = false := by
  intro c r h
  unfold trimChars at h
  have hmne : (l.dropWhile isSpaceChar).reverse.dropWhile isSpaceChar ≠ [] := by
    intro hnil
    rw [hnil] at h
    simp at h
  have hlast : ((l.dropWhile isSpaceChar).reverse.dropWhile isSpaceChar).getLast? =
      some c := by
    rw [← List.head?_reverse, h]
    rfl
  obtain ⟨pre, hpre⟩ :=
    @List.dropWhile_suffix Char ((l.dropWhile isSpaceChar).reverse) isSpaceChar
  have hlast2 : (l.dropWhile isSpaceChar).reverse.getLast? = some c := by
    rw [← hpre, List.getLast?_append_of_ne_nil _ hmne]
    exact hlast
  rw [List.getLast?_reverse] at hlast2
  cases hn : l.dropWhile isSpaceChar with
  | nil => rw [hn] at hlast2; simp at hlast2
  | cons d n' =>
    rw [hn] at hlast2
    simp only [List.head?_cons, Option.some.injEq] at hlast2
    subst hlast2
    exact dropWhile_head_not _ l d n' hn

/-- The last character of a trimmed string is not whitespace. -/
theorem trimChars_last (l : List Char) :
    ∀ c, (trimChars l).getLast? = some c → isSpaceChar c = false := by
  intro c h
  unfold trimChars at h
  rw [List.getLast?_reverse] at h
  cases hm : (l.dropWhile isSpaceChar).reverse.dropWhile isSpaceChar with
  | nil => rw [hm] at h; simp at h
  | cons d m' =>
    rw [hm] at h
    simp only [List.head?_cons, Option.some.injEq] at h
    subst h
    exact dropWhile_head_not _ _ d m' hm

/-- A string with non-whitespace edges is untouched by trimming. -/
theorem trimChars_eq_self (l : List Char)
    (h1 : ∀ c r, l = c :: r → isSpaceChar c = false)
    (h2 : ∀ c, l.getLast? = some c → isSpaceChar c = false) :
    trimChars l = l := by
  unfold trimChars
  rw [dropWhile_eq_self_of_head _ l h1]
  rw [dropWhile_eq_self_of_head isSpaceChar l.reverse, List.reverse_reverse]
  intro c r hc
  apply h2
  rw [← List.head?_reverse, hc]
  rfl

/-- Every run in an alternating run list is nonempty. -/
theorem runs_ne_nil : ∀ {p : Option Bool} {ts : List (List Char)}, Runs p ts →
    ∀ t ∈ ts, t ≠ [] := by
  intro p ts h
  induction h with
  | nil => intro t ht; simp at ht
  | cons p k t ts hrun _ _ ih =>
    intro u hu
    rcases List.mem_cons.mp hu with rfl | hu'
    · exact hrun.1
    · exact ih u hu'

/-- The replacement words are nonempty word strings. -/
theorem pinoyReps_ok :
    ∀ r ∈ pinoyRules.map (fun pr => pr.2.data),
      r ≠ [] ∧ r.all isWordChar = true := by decide

/-- The normalized text never starts with whitespace. -/
theorem normalized_head_not_space (l : List Char) :
    ∀ c r, ((tokenize (trimChars l)).map substAllTokens).flatten = c :: r →
      isSpaceChar c = false := by
  intro c r hJ
  have hruns : Runs none (tokenize (trimChars l)) :=
    runs_tokenize (trimChars l).length _ le_rfl none (fun _ _ _ => by simp)
  cases ht : tokenize (trimChars l) with
  | nil => rw [ht] at hJ; simp at hJ
  | cons t1 ts' =>
    have ht1ne : t1 ≠ [] := by
      rw [ht] at hruns
      exact runs_ne_nil hruns t1 (by simp)
    have hFne : substAllTokens t1 ≠ [] := by
      rcases substRules_cases pinoyRules t1 with hfix | hmem
      · show substRules pinoyRules t1 ≠ []
        rw [hfix]; exact ht1ne
      · exact (pinoyReps_ok _ hmem).1
    rw [ht, List.map_cons, List.flatten_cons] at hJ
    have hheadJ : (substAllTokens t1).head? = some c := by
      rw [← @List.head?_append_of_ne_nil Char (substAllTokens t1)
        ((ts'.map substAllTokens).flatten) hFne, hJ]
      rfl
    rcases substRules_cases pinoyRules t1 with hfix | hmem
    · -- the first run is unchanged: its head is the head of the trimmed input
      have hfix' : substAllTokens t1 = t1 := hfix
      rw [hfix'] at hheadJ
      obtain ⟨d, t1', rfl⟩ := List.exists_cons_of_ne_nil ht1ne
      simp only [List.head?_cons, Option.some.injEq] at hheadJ
      have hdec : trimChars l = d :: (t1' ++ ts'.flatten) := by
        conv_lhs => rw [← tokenize_flatten' (trimChars l), ht]
        simp
      rw [← hheadJ]
      exact trimChars_head l d _ hdec
    · -- the first run was replaced by a word string
      have hcmem : c ∈ substAllTokens t1 := by
        cases hF : substAllTokens t1 with
        | nil => exact absurd hF hFne
        | cons d f' =>
          rw [hF] at hheadJ
          simp only [List.head?_cons, Option.some.injEq] at hheadJ
          rw [hheadJ]
          simp
      have hw := (pinoyReps_ok _ hmem).2
      exact word_not_space (by simpa using List.all_eq_true.mp hw c hcmem)

/-- The normalized text never ends with whitespace. -/
theorem normalized_last_not_space (l : List Char) :
    ∀ c, (((tokenize (trimChars l)).map substAllTokens).flatten).getLast? = some c →
      isSpaceChar c = false := by
  intro c hc
  have hruns : Runs none (tokenize (trimChars l)) :=
    runs_tokenize (trimChars l).length _ le_rfl none (fun _ _ _ => by simp)
  rcases List.eq_nil_or_concat (tokenize (trimChars l)) with hnil | ⟨ts', tl, hcat⟩
  · rw [hnil] at hc; simp at hc
  · rw [List.concat_eq_append] at hcat
    have htlne : tl ≠ [] := by
      rw [hcat] at hruns
      exact runs_ne_nil hruns tl (by simp)
    have hFne : substAllTokens tl ≠ [] := by
      rcases substRules_cases pinoyRules tl with hfix | hmem
      · show substRules pinoyRules tl ≠ []
        rw [hfix]; exact htlne
      · exact (pinoyReps_ok _ hmem).1
    rw [hcat, List.map_append, List.flatten_append, List.map_cons, List.map_nil,
      List.flatten_cons, List.flatten_nil, List.append_nil,
      List.getLast?_append_of_ne_nil _ hFne] at hc
    rcases substRules_cases pinoyRules tl with hfix | hmem
    · have hfix' : substAllTokens tl = tl := hfix
      rw [hfix'] at hc
      have hlast0 : (trimChars l).getLast? = some c := by
        conv_lhs => rw [← tokenize_flatten' (trimChars l), hcat]
        rw [List.flatten_append, List.flatten_cons, List.flatten_nil, List.append_nil,
          List.getLast?_append_of_ne_nil _ htlne]
        exact hc
      exact trimChars_last l c hlast0
    · have hcmem : c ∈ substAllTokens tl :=
        List.mem_of_mem_getLast? (by rw [Option.mem_def]; exact hc)
      have hw := (pinoyReps_ok _ hmem).2
      exact word_not_space (by simpa using List.all_eq_true.mp hw c hcmem)

/-- Claim C8: `normalizePhilippineAddress` is idempotent: normalizing an
already-normalized string yields the same string. -/
theorem c8_normalize_idempotent (a : String) :
    normalizePhilippineAddress (normalizePhilippineAddress a) =
      normalizePhilippineAddress a := by
  obtain ⟨hform, hruns⟩ := normalize_form a
  have hxdata : (normalizePhilippineAddress a).data =
      ((tokenize (trimChars a.data)).map substAllTokens).flatten := by
    rw [hform]
  have htrimJ : trimChars (((tokenize (trimChars a.data)).map substAllTokens).flatten) =
      ((tokenize (trimChars a.data)).map substAllTokens).flatten :=
    trimChars_eq_self _ (normalized_head_not_space a.data)
      (normalized_last_not_space a.data)
  have hchain := applyRules_flatten pinoyRules (by decide) hruns
  have hsr : substRules pinoyRules = substAllTokens := rfl
  rw [hsr] at hchain
  have hmapmap : ∀ l : List (List Char),
      (l.map substAllTokens).map substAllTokens = l.map substAllTokens := by
    intro l
    induction l with
    | nil => rfl
    | cons t ts ih => simp only [List.map_cons, ih, substAllTokens_idem]
  rw [normalize_eq_applyRules (normalizePhilippineAddress a), hxdata, htrimJ,
    hchain.1, hmapmap]
  exact hform.symm

/-! ### Haversine distance and the delivery-area check

`calculateDistanceHaversine` (useGoogleMaps.ts lines 107-120) computes
the great-circle distance with the haversine formula and inflates it by
the fixed road-indirection factor 1.2.  `Math.atan2(y, x)` is the
argument of the complex number `x + y·i`. -/

/-- JS `Math.atan2(y, x)`: the argument of `x + y·i`. -/
noncomputable def atan2 (y x : ℝ) : ℝ := Complex.arg ((x : ℂ) + (y : ℂ) * Complex.I)

/-- The intermediate value `a` of the haversine formula (line 111-114):
`sin(dLat/2)² + cos(φ1)·cos(φ2)·sin(dLon/2)²` with angles in radians. -/
noncomputable def havTerm (lat1 lon1 lat2 lon2 : ℝ) : ℝ :=
  Real.sin ((lat2 - lat1) * Real.pi / 180 / 2) *
      Real.sin ((lat2 - lat1) * Real.pi / 180 / 2) +
    Real.cos (lat1 * Real.pi / 180) * Real.cos (lat2 * Real.pi / 180) *
      Real.sin ((lon2 - lon1) * Real.pi / 180 / 2) *
      Real.sin ((lon2 - lon1) * Real.pi / 180 / 2)

/-- The `straightLineDistance` local of `calculateDistanceHaversine`:
`R * c` with `R = 6371` and `c = 2·atan2(√a, √(1-a))`. -/
noncomputable def greatCircleDistance (lat1 lon1 lat2 lon2 : ℝ) : ℝ :=
  6371 * (2 * atan2 (Real.sqrt (havTerm lat1 lon1 lat2 lon2))
    (Real.sqrt (1 - havTerm lat1 lon1 lat2 lon2)))

/-- Shallow embedding of `calculateDistanceHaversine` (lines 107-120):
the great-circle distance times the 20% road buffer. -/
noncomputable def calculateDistanceHaversine (lat1 lon1 lat2 lon2 : ℝ) : ℝ :=
  greatCircleDistance lat1 lon1 lat2 lon2 * 1.2

/-- JS `Math.round(x * 10) / 10` (round to one decimal;
`Math.round` is `⌊x + 1/2⌋`, which is Mathlib's `round`). -/
noncomputable def jsRound1 (x : ℝ) : ℝ := (round (x * 10) : ℤ) / 10

/-- The haversine fallback branch of `calculateDistanceBetweenAddresses`
(lines 434-447) and of `calculateDistance` (lines 375-385): the buffered
haversine distance rounded to one decimal. -/
noncomputable def fallbackRoadDistance (plat plng dlat dlng : ℝ) : ℝ :=
  jsRound1 (calculateDistanceHaversine plat plng dlat dlng)

/-- `MAX_DELIVERY_RADIUS_KM` (line 13). -/
def MAX_DELIVERY_RADIUS_KM : ℝ := 100

/-- The `within` flag of `isWithinDeliveryArea` (lines 494-501):
`distanceFromCenter <= MAX_DELIVERY_RADIUS_KM`, where
`distanceFromCenter` is `calculateDistanceHaversine` (the unrounded,
1.2-buffered value). -/
def withinDeliveryArea (slat slng clat clng : ℝ) : Prop :=
  calculateDistanceHaversine slat slng clat clng ≤ MAX_DELIVERY_RADIUS_KM

/-- The `distance` reported by `isWithinDeliveryArea` (line 502). -/
noncomputable def deliveryAreaReportedDistance (slat slng clat clng : ℝ) : ℝ :=
  jsRound1 (calculateDistanceHaversine slat slng clat clng)

/-- `atan2` of a non-negative `y` is non-negative. -/
theorem atan2_nonneg (y x : ℝ) (hy : 0 ≤ y) : 0 ≤ atan2 y x := by
  unfold atan2
  rw [Complex.arg_nonneg_iff]
  simp [hy]

/-- The great-circle distance is non-negative. -/
theorem greatCircleDistance_nonneg (lat1 lon1 lat2 lon2 : ℝ) :
    0 ≤ greatCircleDistance lat1 lon1 lat2 lon2 := by
  unfold greatCircleDistance
  have h := atan2_nonneg (Real.sqrt (havTerm lat1 lon1 lat2 lon2))
    (Real.sqrt (1 - havTerm lat1 lon1 lat2 lon2)) (Real.sqrt_nonneg _)
  nlinarith

/-- One-decimal rounding preserves non-negativity. -/
theorem jsRound1_nonneg (x : ℝ) (hx : 0 ≤ x) : 0 ≤ jsRound1 x := by
  unfold jsRound1
  have h1 : (0 : ℤ) ≤ round (x * 10) := by
    rw [round_eq]
    exact Int.floor_nonneg.mpr (by linarith)
  have h2 : (0 : ℝ) ≤ (round (x * 10) : ℤ) := by exact_mod_cast h1
  positivity

/-- Latitudes within ±90° have non-negative cosine (in radians). -/
theorem cos_deg_nonneg (lat : ℝ) (h : |lat| ≤ 90) :
    0 ≤ Real.cos (lat * Real.pi / 180) := by
  obtain ⟨hl, hr⟩ := abs_le.mp h
  apply Real.cos_nonneg_of_mem_Icc
  constructor
  · have := Real.pi_pos
    nlinarith
  · have := Real.pi_pos
    nlinarith

/-- For in-range latitudes the haversine term stays in `[0, 1]`, the
domain on which both square roots are real (no `NaN`). -/
theorem havTerm_bounds (lat1 lon1 lat2 lon2 : ℝ)
    (h1 : |lat1| ≤ 90) (h2 : |lat2| ≤ 90) :
    0 ≤ havTerm lat1 lon1 lat2 lon2 ∧ havTerm lat1 lon1 lat2 lon2 ≤ 1 := by
  have hc1 := cos_deg_nonneg lat1 h1
  have hc2 := cos_deg_nonneg lat2 h2
  have hC : 0 ≤ Real.cos (lat1 * Real.pi / 180) * Real.cos (lat2 * Real.pi / 180) :=
    mul_nonneg hc1 hc2
  constructor
  · unfold havTerm
    nlinarith [mul_self_nonneg (Real.sin ((lat2 - lat1) * Real.pi / 180 / 2)),
      mul_self_nonneg (Real.sin ((lon2 - lon1) * Real.pi / 180 / 2))]
  · unfold havTerm
    have hhalf := Real.sin_sq_eq_half_sub ((lat2 - lat1) * Real.pi / 180 / 2)
    rw [show 2 * ((lat2 - lat1) * Real.pi / 180 / 2) = (lat2 - lat1) * Real.pi / 180
      from by ring] at hhalf
    rw [pow_two] at hhalf
    have hsub : Real.cos ((lat2 - lat1) * Real.pi / 180) =
        Real.cos (lat2 * Real.pi / 180) * Real.cos (lat1 * Real.pi / 180) +
          Real.sin (lat2 * Real.pi / 180) * Real.sin (lat1 * Real.pi / 180) := by
      rw [show (lat2 - lat1) * Real.pi / 180 =
        lat2 * Real.pi / 180 - lat1 * Real.pi / 180 from by ring]
      exact Real.cos_sub _ _
    have hadd := Real.cos_add (lat1 * Real.pi / 180) (lat2 * Real.pi / 180)
    have hcos1 := Real.cos_le_one (lat1 * Real.pi / 180 + lat2 * Real.pi / 180)
    have hs2 := Real.sin_sq_le_one ((lon2 - lon1) * Real.pi / 180 / 2)
    rw [pow_two] at hs2
    nlinarith [hC, hs2, mul_nonneg hC (by nlinarith [hs2] :
      (0:ℝ) ≤ 1 - Real.sin ((lon2 - lon1) * Real.pi / 180 / 2) *
        Real.sin ((lon2 - lon1) * Real.pi / 180 / 2))]

/-- The haversine term vanishes for identical coordinates. -/
theorem havTerm_self (lat lon : ℝ) : havTerm lat lon lat lon = 0 := by
  unfold havTerm
  simp [sub_self]

/-- `atan2 0 1 = 0` (the degenerate identical-coordinates case). -/
theorem atan2_zero_one : atan2 0 1 = 0 := by
  unfold atan2
  rw [show ((1:ℝ):ℂ) + ((0:ℝ):ℂ) * Complex.I = 1 by push_cast; ring]
  exact Complex.arg_one

/-- The great-circle distance between identical coordinates is zero. -/
theorem greatCircleDistance_self (lat lon : ℝ) :
    greatCircleDistance lat lon lat lon = 0 := by
  unfold greatCircleDistance
  rw [havTerm_self, Real.sqrt_zero, sub_zero, Real.sqrt_one, atan2_zero_one]
  ring

/-- Claim C5: when the routing provider is unavailable, the fallback
distance equals the haversine great-circle distance multiplied by the
fixed indirection factor 1.2, rounded to one decimal; for coordinates
with in-range latitudes the haversine term stays inside the domain of
both square roots (no `NaN` arises), the result is never negative, and
identical coordinates give distance 0. -/
theorem c5_haversine_fallback (lat1 lon1 lat2 lon2 : ℝ)
    (h1 : |lat1| ≤ 90) (h2 : |lat2| ≤ 90) :
    fallbackRoadDistance lat1 lon1 lat2 lon2 =
      jsRound1 (1.2 * greatCircleDistance lat1 lon1 lat2 lon2) ∧
    0 ≤ fallbackRoadDistance lat1 lon1 lat2 lon2 ∧
    (0 ≤ havTerm lat1 lon1 lat2 lon2 ∧ havTerm lat1 lon1 lat2 lon2 ≤ 1) ∧
    (lat1 = lat2 → lon1 = lon2 → fallbackRoadDistance lat1 lon1 lat2 lon2 = 0) := by
  refine ⟨?_, ?_, havTerm_bounds lat1 lon1 lat2 lon2 h1 h2, ?_⟩
  · unfold fallbackRoadDistance calculateDistanceHaversine
    rw [mul_comm]
  · unfold fallbackRoadDistance
    apply jsRound1_nonneg
    unfold calculateDistanceHaversine
    nlinarith [greatCircleDistance_nonneg lat1 lon1 lat2 lon2]
  · intro hlat hlon
    subst hlat
    subst hlon
    unfold fallbackRoadDistance calculateDistanceHaversine
    rw [greatCircleDistance_self, zero_mul]
    unfold jsRound1
    norm_num

/-- Witness for C5 at the origin coordinates. -/
theorem c5_witness :
    |(0:ℝ)| ≤ 90 ∧ fallbackRoadDistance 0 0 0 0 = 0 :=
  ⟨by norm_num,
    (c5_haversine_fallback 0 0 0 0 (by norm_num) (by norm_num)).2.2.2 rfl rfl⟩

/-- Claim C6 (counterexample): with origin `(0, 0)` and destination
`(0, 0.8)` the straight-line haversine distance is below the 100 km
radius, yet `isWithinDeliveryArea` reports `within = false`, because it
compares the 1.2-buffered distance — not the bare haversine distance —
against the radius. -/
theorem c6_counterexample :
    ¬ withinDeliveryArea 0 0 0 (4/5) ∧ greatCircleDistance 0 0 0 (4/5) ≤ 100 := by
  have hpi := Real.pi_pos
  set A : ℝ := (4/5 - 0) * Real.pi / 180 / 2 with hA
  have hA0 : 0 ≤ A := by rw [hA]; positivity
  have hApi : A ≤ Real.pi := by rw [hA]; nlinarith
  have hApi2 : A ≤ Real.pi / 2 := by rw [hA]; nlinarith
  have hsinA : 0 ≤ Real.sin A := Real.sin_nonneg_of_nonneg_of_le_pi hA0 hApi
  have hcosA : 0 ≤ Real.cos A :=
    Real.cos_nonneg_of_mem_Icc ⟨by linarith, hApi2⟩
  have hterm : havTerm 0 0 0 (4/5) = Real.sin A * Real.sin A := by
    unfold havTerm
    rw [hA]
    norm_num
  have hpyth := Real.sin_sq_add_cos_sq A
  rw [pow_two, pow_two] at hpyth
  have hsqa : Real.sqrt (Real.sin A * Real.sin A) = Real.sin A :=
    Real.sqrt_mul_self hsinA
  have hsq1a : Real.sqrt (1 - Real.sin A * Real.sin A) = Real.cos A := by
    rw [show 1 - Real.sin A * Real.sin A = Real.cos A * Real.cos A from by linarith]
    exact Real.sqrt_mul_self hcosA
  have hatan : atan2 (Real.sin A) (Real.cos A) = A := by
    unfold atan2
    rw [Complex.ofReal_cos, Complex.ofReal_sin]
    exact Complex.arg_cos_add_sin_mul_I ⟨by linarith, hApi⟩
  have hgc : greatCircleDistance 0 0 0 (4/5) = 6371 * (2 * A) := by
    unfold greatCircleDistance
    rw [hterm, hsqa, hsq1a, hatan]
  constructor
  · unfold withinDeliveryArea calculateDistanceHaversine MAX_DELIVERY_RADIUS_KM
    rw [hgc, hA]
    intro hle
    nlinarith [Real.pi_gt_three]
  · rw [hgc, hA]
    nlinarith [Real.pi_lt_d2]

/-- Claim C6 (amended): the Delivery-Area Validator applies the same
1.2 road-indirection factor as the fee fallback: it reports
`within = true` exactly when `1.2 ×` the haversine great-circle distance
is at most the 100 km radius (equivalently, when the bare great-circle
distance is at most `250/3 ≈ 83.3` km), and the distance it reports is
the buffered distance rounded to one decimal. -/
theorem c6_area_check_with_road_factor (slat slng clat clng : ℝ) :
    (withinDeliveryArea slat slng clat clng ↔
      greatCircleDistance slat slng clat clng * 1.2 ≤ MAX_DELIVERY_RADIUS_KM) ∧
    (withinDeliveryArea slat slng clat clng ↔
      greatCircleDistance slat slng clat clng ≤ 250/3) ∧
    deliveryAreaReportedDistance slat slng clat clng =
      jsRound1 (greatCircleDistance slat slng clat clng * 1.2) := by
  refine ⟨Iff.rfl, ?_, rfl⟩
  unfold withinDeliveryArea calculateDistanceHaversine MAX_DELIVERY_RADIUS_KM
  constructor
  · intro h
    nlinarith
  · intro h
    nlinarith
